import Mathlib

/- Verification development for the neptune Poseidon permutation.

   Shallow embedding of `src/poseidon.rs` (the permutation engine), of the
   serialization layer `src/rykv_impl.rs` / `src/unsafe_rkyv.rs`, and of the
   spec-described mixing-layer optimizer (whose code, `mds.rs`, is not among
   the provided source files).

   The crate-level parameters `ARITY`, `WIDTH = ARITY + 1`, `FULL_ROUNDS`,
   `PARTIAL_ROUNDS`, `ROUND_CONSTANTS`, `MDS_MATRIX` and the scalar field
   are defined outside the provided source files (crate root / external
   field crate), so the development is parametric over them: the field is
   any commutative ring `F` (the engine only uses `add_assign` and
   `mul_assign`), and the arity is `a + 1` (hence the width is `a + 2`),
   reflecting `WIDTH = ARITY + 1` with a positive arity. -/

namespace NeptuneModel

/-- Model of `crate::Error` restricted to the variant used by
`src/poseidon.rs` (`Error::FullBuffer`). -/
inductive Error where
  | FullBuffer
deriving DecidableEq

/-- Model of `scalar_from_u64`: the canonical map from a machine integer
(value `< 2^64`) into the scalar field. -/
def scalar_from_u64 {F : Type} [CommRing F] (n : Nat) : F := (n : F)

/-- Embedding of `arity_tag` (src/poseidon.rs lines 15-17):
`scalar_from_u64((1 << arity) - 1)`.  The shift is performed on a `usize`,
modelled by reducing the operand modulo `2 ^ 64` (for every supported arity,
`arity < 64`, the reduction is the identity). -/
def arity_tag {F : Type} [CommRing F] (arity : Nat) : F :=
  scalar_from_u64 ((1 <<< arity - 1) % 2 ^ 64)

/-- Embedding of `struct Poseidon` (src/poseidon.rs lines 24-29).
`elements` has length `WIDTH = a + 2`; the modelled arity is `a + 1`. -/
structure Poseidon (F : Type) (a : Nat) where
  constants_offset : Nat
  elements : Fin (a + 2) → F
  pos : Nat

instance {F : Type} {a : Nat} [DecidableEq F] : DecidableEq (Poseidon F a) :=
  fun s t =>
    decidable_of_iff
      (s.constants_offset = t.constants_offset ∧ s.elements = t.elements ∧ s.pos = t.pos)
      (by cases s; cases t; simp)

/-- Embedding of `impl Default for Poseidon` (src/poseidon.rs lines 31-41):
all elements zero, then `elements[0] = *ARITY_TAG`, offsets `0`, `pos = 1`. -/
def defaultPoseidon (F : Type) [CommRing F] (a : Nat) : Poseidon F a :=
  { constants_offset := 0
    elements := Function.update (fun _ => (0 : F)) 0 (arity_tag (a + 1))
    pos := 1 }

/-- Embedding of `Poseidon::reset` (src/poseidon.rs lines 63-70): zero the
constants offset, zero `elements[1..]`, restore `elements[0]` to the arity
tag, reset `pos` to `1`. -/
def Poseidon.reset {F : Type} [CommRing F] {a : Nat} (s : Poseidon F a) : Poseidon F a :=
  { constants_offset := 0
    elements :=
      Function.update
        (fun i : Fin (a + 2) => if 1 ≤ i.val then scalar_from_u64 0 else s.elements i)
        0 (arity_tag (a + 1))
    pos := 1 }

/-- Embedding of `Poseidon::set_preimage` (src/poseidon.rs lines 57-60):
reset, then copy the preimage into `elements[1..]`. -/
def Poseidon.set_preimage {F : Type} [CommRing F] {a : Nat}
    (s : Poseidon F a) (preimage : Fin (a + 1) → F) : Poseidon F a :=
  let r := s.reset
  { r with
    elements := fun i : Fin (a + 2) =>
      if h : 1 ≤ i.val then preimage ⟨i.val - 1, by omega⟩ else r.elements i }

/-- Embedding of `Poseidon::new` (src/poseidon.rs lines 45-50). -/
def newPoseidon {F : Type} [CommRing F] {a : Nat} (preimage : Fin (a + 1) → F) :
    Poseidon F a :=
  (defaultPoseidon F a).set_preimage preimage

/-- Embedding of `Poseidon::input` (src/poseidon.rs lines 73-84).  The Rust
method mutates `self` and returns `Result<usize, Error>`; the embedding
returns the result together with the post-call state (the state is returned
unchanged on failure, as the Rust method returns before touching it). -/
def Poseidon.input {F : Type} [CommRing F] {a : Nat}
    (s : Poseidon F a) (element : F) : Except Error Nat × Poseidon F a :=
  if h : a + 2 ≤ s.pos then
    (Except.error Error.FullBuffer, s)
  else
    (Except.ok (s.pos + 1 - 1),
     { s with
       elements := Function.update s.elements ⟨s.pos, Nat.lt_of_not_le h⟩ element
       pos := s.pos + 1 })

/-- Sequential absorption of a list of elements via `Poseidon::input`,
stopping at the first failure (mirrors the repeated `p.input(x)?`-style use
in the source's tests). -/
def inputMany {F : Type} [CommRing F] {a : Nat}
    (es : List F) (s : Poseidon F a) : Except Error (Poseidon F a) :=
  match es with
  | [] => Except.ok s
  | e :: rest =>
      match s.input e with
      | (Except.ok _, s2) => inputMany rest s2
      | (Except.error err, _) => Except.error err

/-- Embedding of `quintic_s_box` (src/poseidon.rs lines 164-169): save the
argument in `c`, then multiply the accumulator by `c` four times in
sequence. -/
def quintic_s_box {F : Type} [CommRing F] (l : F) : F :=
  let c := l
  (((l * c) * c) * c) * c

/-- Embedding of `Poseidon::add_round_constants` (src/poseidon.rs lines
135-144): element `i` is incremented by `ROUND_CONSTANTS[offset + i]`, and the
offset advances by `WIDTH = a + 2`. -/
def add_round_constants {F : Type} [CommRing F] {a : Nat}
    (RC : Nat → F) (s : Poseidon F a) : Poseidon F a :=
  { s with
    elements := fun i => s.elements i + RC (s.constants_offset + i.val)
    constants_offset := s.constants_offset + (a + 2) }

/-- The S-box application of a full round (src/poseidon.rs line 115): apply
`quintic_s_box` to every element. -/
def sboxAll {F : Type} [CommRing F] {a : Nat} (s : Poseidon F a) : Poseidon F a :=
  { s with elements := fun i => quintic_s_box (s.elements i) }

/-- The S-box application of a partial round (src/poseidon.rs line 127):
apply `quintic_s_box` to element `0` only. -/
def sboxFirst {F : Type} [CommRing F] {a : Nat} (s : Poseidon F a) : Poseidon F a :=
  { s with elements := Function.update s.elements 0 (quintic_s_box (s.elements 0)) }

/-- Embedding of `Poseidon::product_mds` (src/poseidon.rs lines 148-160):
`result[j] = sum_k MDS_MATRIX[j][k] * elements[k]`. -/
def product_mds {F : Type} [CommRing F] {a : Nat}
    (MDS : Fin (a + 2) → Fin (a + 2) → F) (s : Poseidon F a) : Poseidon F a :=
  { s with elements := fun j => ∑ k, MDS j k * s.elements k }

/-- Embedding of `Poseidon::full_round` (src/poseidon.rs lines 110-119). -/
def full_round {F : Type} [CommRing F] {a : Nat}
    (RC : Nat → F) (MDS : Fin (a + 2) → Fin (a + 2) → F) (s : Poseidon F a) :
    Poseidon F a :=
  product_mds MDS (sboxAll (add_round_constants RC s))

/-- Embedding of `Poseidon::partial_round` (src/poseidon.rs lines 122-131). -/
def partial_round {F : Type} [CommRing F] {a : Nat}
    (RC : Nat → F) (MDS : Fin (a + 2) → Fin (a + 2) → F) (s : Poseidon F a) :
    Poseidon F a :=
  product_mds MDS (sboxFirst (add_round_constants RC s))

/-- State transformation of `Poseidon::hash` (src/poseidon.rs lines 89-105):
`FULL_ROUNDS / 2` full rounds, then `PARTIAL_ROUNDS` partial rounds, then
`FULL_ROUNDS / 2` full rounds. -/
def hashState {F : Type} [CommRing F] {a : Nat}
    (RC : Nat → F) (MDS : Fin (a + 2) → Fin (a + 2) → F)
    (FULL_ROUNDS PARTIAL_ROUNDS : Nat) (s : Poseidon F a) : Poseidon F a :=
  (full_round RC MDS)^[FULL_ROUNDS / 2]
    ((partial_round RC MDS)^[PARTIAL_ROUNDS]
      ((full_round RC MDS)^[FULL_ROUNDS / 2] s))

/-- Embedding of `Poseidon::hash` (src/poseidon.rs lines 89-105): run the
round schedule and return `elements[1]`. -/
def hash {F : Type} [CommRing F] {a : Nat}
    (RC : Nat → F) (MDS : Fin (a + 2) → Fin (a + 2) → F)
    (FULL_ROUNDS PARTIAL_ROUNDS : Nat) (s : Poseidon F a) : F :=
  (hashState RC MDS FULL_ROUNDS PARTIAL_ROUNDS s).elements 1

/-- Round-constant indices read by one `add_round_constants` call from state
`s`: `ROUND_CONSTANTS[s.constants_offset + i]` for `i = 0, ..., WIDTH - 1`,
in iteration order (src/poseidon.rs lines 135-144). -/
def acReads {F : Type} {a : Nat} (s : Poseidon F a) : List Nat :=
  (List.range (a + 2)).map (fun i => s.constants_offset + i)

/-- Round-constant indices read by `n` iterations of a round function `f`
starting from `s` (each round of src/poseidon.rs reads constants exactly in
its single `add_round_constants` call). -/
def iterReads {F : Type} {a : Nat}
    (f : Poseidon F a → Poseidon F a) : Nat → Poseidon F a → List Nat
  | 0, _ => []
  | n + 1, s => acReads s ++ iterReads f n (f s)

/-- Round-constant indices read, in order, by one `Poseidon::hash` call
starting from `s`, following the round schedule of src/poseidon.rs lines
92-102. -/
def hashReads {F : Type} [CommRing F] {a : Nat}
    (RC : Nat → F) (MDS : Fin (a + 2) → Fin (a + 2) → F)
    (FULL_ROUNDS PARTIAL_ROUNDS : Nat) (s : Poseidon F a) : List Nat :=
  iterReads (full_round RC MDS) (FULL_ROUNDS / 2) s
    ++ iterReads (partial_round RC MDS) PARTIAL_ROUNDS
        ((full_round RC MDS)^[FULL_ROUNDS / 2] s)
    ++ iterReads (full_round RC MDS) (FULL_ROUNDS / 2)
        ((partial_round RC MDS)^[PARTIAL_ROUNDS]
          ((full_round RC MDS)^[FULL_ROUNDS / 2] s))

/- Mixing-layer optimizer.  Modelled from the spec: the optimizer's code
   (`mds.rs`) is not among the provided source files; only the dense
   per-round path (`Poseidon::product_mds`, applied once per partial round
   in `Poseidon::partial_round`) is.  Following spec section 4.2, the
   `width × width` state is indexed by `Unit ⊕ Fin k` (the leading slot plus
   the `k = width - 1` remaining slots), a sparse matrix differs from the
   identity only in its first row and first column, and the factorization
   replaces `partial_rounds` dense applications by one pre-sparse dense
   application followed by one sparse application per round. -/

/-- Matrix inverse computed explicitly as `det⁻¹ • adjugate` (needed in
executable form by the optimizer when it inverts the trailing minor). -/
def matInv {F : Type} [Field F] [DecidableEq F] {k : Nat}
    (A : Matrix (Fin k) (Fin k) F) : Matrix (Fin k) (Fin k) F :=
  A.det⁻¹ • A.adjugate

/-- Modelled from the spec: the sparse factor of a dense matrix `C`.  It
keeps the first column of `C`, carries `C`'s first row corrected by the
inverse of the trailing minor, and is the identity elsewhere. -/
def sparsePart {F : Type} [Field F] [DecidableEq F] {k : Nat}
    (C : Matrix (Unit ⊕ Fin k) (Unit ⊕ Fin k) F) :
    Matrix (Unit ⊕ Fin k) (Unit ⊕ Fin k) F :=
  Matrix.fromBlocks C.toBlocks₁₁ (C.toBlocks₁₂ * matInv C.toBlocks₂₂) C.toBlocks₂₁ 1

/-- Modelled from the spec: the dense co-factor `diag(1, minor)` of a dense
matrix `C` in one factorization step. -/
def densePart {F : Type} [Field F] [DecidableEq F] {k : Nat}
    (C : Matrix (Unit ⊕ Fin k) (Unit ⊕ Fin k) F) :
    Matrix (Unit ⊕ Fin k) (Unit ⊕ Fin k) F :=
  Matrix.fromBlocks 1 0 0 C.toBlocks₂₂

/-- Modelled from the spec: factor `n` applications of the dense mixing
matrix `M` into one pre-sparse matrix (first component) and `n` sparse
matrices, returned in application order. -/
def factorToSparse {F : Type} [Field F] [DecidableEq F] {k : Nat}
    (M : Matrix (Unit ⊕ Fin k) (Unit ⊕ Fin k) F) :
    Nat → Matrix (Unit ⊕ Fin k) (Unit ⊕ Fin k) F
          × List (Matrix (Unit ⊕ Fin k) (Unit ⊕ Fin k) F)
  | 0 => (1, [])
  | n + 1 =>
      let C := (factorToSparse M n).1 * M
      (densePart C, sparsePart C :: (factorToSparse M n).2)

/-- Apply a list of mixing matrices to a state, head applied first (each
application is a matrix-vector product, exactly the `product_mds` formula). -/
def applyAll {F : Type} [Field F] {k : Nat}
    (Ts : List (Matrix (Unit ⊕ Fin k) (Unit ⊕ Fin k) F))
    (v : (Unit ⊕ Fin k) → F) : (Unit ⊕ Fin k) → F :=
  Ts.foldl (fun w T => T.mulVec w) v

/-- The optimized mixing path over the partial-round phase: pre-sparse
matrix once, then the sparse matrices in order. -/
def sparsePath {F : Type} [Field F] [DecidableEq F] {k : Nat}
    (M : Matrix (Unit ⊕ Fin k) (Unit ⊕ Fin k) F) (n : Nat)
    (v : (Unit ⊕ Fin k) → F) : (Unit ⊕ Fin k) → F :=
  applyAll (factorToSparse M n).2 ((factorToSparse M n).1.mulVec v)

/-- The unoptimized mixing path over the partial-round phase: the dense
matrix once per partial round (the `product_mds` application of
src/poseidon.rs lines 148-160, iterated). -/
def densePath {F : Type} [Field F] {k : Nat}
    (M : Matrix (Unit ⊕ Fin k) (Unit ⊕ Fin k) F) (n : Nat)
    (v : (Unit ⊕ Fin k) → F) : (Unit ⊕ Fin k) → F :=
  (fun w => M.mulVec w)^[n] v

/- Constants model and its byte-level roundtrip (src/rykv_impl.rs).  The
   `PoseidonConstants` struct itself and the types of its fields are
   declared outside the provided source files; their shapes are modelled
   from the spec (section 3, constants model), while the roundtrip
   semantics (which fields survive `serialize` then `deserialize`) is read
   off the `Serialize`/`Deserialize` impls of src/rykv_impl.rs. -/

/-- Model of `Strength` (spec: security-level selector). -/
inductive Strength where
  | Standard
  | Strengthened
deriving DecidableEq

/-- Model of `CType` restricted to the variant supported by the
serialization code of src/rykv_impl.rs lines 24-68 (`CType::Arbitrary`;
the `_Phantom` arm is `unimplemented!()`). -/
inductive CType where
  | Arbitrary (id : Nat)
deriving DecidableEq

/-- Model of the `CType` archive roundtrip of src/rykv_impl.rs lines 24-68:
`Arbitrary(id)` is stored as `Some(id)` and restored as `Arbitrary(id)`. -/
def ctypeRoundtrip : CType → CType
  | CType.Arbitrary id => CType.Arbitrary id

/-- Model of `PoseidonConstants` with the fields enumerated by the
`Serialize`/`Deserialize` impls of src/rykv_impl.rs lines 259-363.  Matrices
are modelled as lists of rows, a sparse matrix as its (first row, leak
coefficients) pair, per spec section 4.2. -/
structure PoseidonConstants (F : Type) where
  mds_matrices : List (List F)
  round_constants : Option (List F)
  compressed_round_constants : List F
  pre_sparse_matrix : List (List F)
  sparse_matrixes : List (List F × List F)
  strength : Strength
  domain_tag : F
  full_rounds : Nat
  half_full_rounds : Nat
  partial_rounds : Nat
  hash_type : CType

/-- Semantic composition `deserialize ∘ serialize` for `PoseidonConstants`,
read off src/rykv_impl.rs: `serialize` (lines 275-298) stores every field
except `round_constants` and `half_full_rounds`; `deserialize` (lines
328-363) restores the stored fields, sets `round_constants` to `None` and
recomputes `half_full_rounds` as `full_rounds / 2`. -/
def rkyvRoundtrip {F : Type} (c : PoseidonConstants F) : PoseidonConstants F :=
  { c with
    round_constants := none
    half_full_rounds := c.full_rounds / 2 }

/-- Dense matrix-vector product on list-encoded matrices (row-major), the
`product_mds` formula. -/
def matVecL {F : Type} [CommRing F] (M : List (List F)) (v : List F) : List F :=
  M.map fun row => (List.zipWith (fun x y => x * y) row v).sum

/-- Modelled from the spec: apply a sparse matrix given as (first row, leak
coefficients): the leading output is the dot product of the first row with
the state, every other output adds its leak coefficient times the leading
input to the corresponding state entry. -/
def sparseApplyL {F : Type} [CommRing F] (sm : List F × List F) (st : List F) :
    List F :=
  match st with
  | [] => []
  | x :: rest =>
      (List.zipWith (fun p y => p * y) sm.1 (x :: rest)).sum ::
        List.zipWith (fun y c => y + c * x) rest sm.2

/-- Modelled from the spec: one full round of the optimized engine on
(state, constants cursor): inject one compressed constant per element,
apply the S-box everywhere, multiply by the dense mixing matrix. -/
def fullRoundC {F : Type} [CommRing F] (c : PoseidonConstants F)
    (p : List F × Nat) : List F × Nat :=
  let st := p.1.mapIdx fun i x => x + c.compressed_round_constants.getD (p.2 + i) 0
  (matVecL c.mds_matrices (st.map quintic_s_box), p.2 + p.1.length)

/-- Modelled from the spec: partial round `i` of the optimized engine:
inject one compressed constant into the leading element, apply the S-box to
it only, then apply the round's sparse matrix. -/
def partialRoundC {F : Type} [CommRing F] (c : PoseidonConstants F) (i : Nat)
    (p : List F × Nat) : List F × Nat :=
  let st :=
    match p.1 with
    | [] => ([] : List F)
    | x :: rest =>
        quintic_s_box (x + c.compressed_round_constants.getD p.2 0) :: rest
  (sparseApplyL (c.sparse_matrixes.getD i ([], [])) st, p.2 + 1)

/-- Modelled from the spec: the optimized permutation driven by a constants
model (the engine consuming `PoseidonConstants` is not among the provided
source files).  State starts as `domain_tag :: preimage`; `half_full_rounds`
full rounds, the pre-sparse matrix once, `partial_rounds` partial rounds
with their sparse matrices, `half_full_rounds` full rounds; the digest is
the element at index 1.  It reads every field of the model except
`round_constants` and `full_rounds`. -/
def hashWithConstants {F : Type} [CommRing F] (c : PoseidonConstants F)
    (preimage : List F) : F :=
  let p0 := (c.domain_tag :: preimage, 0)
  let p1 := (fullRoundC c)^[c.half_full_rounds] p0
  let p2 := (matVecL c.pre_sparse_matrix p1.1, p1.2)
  let p3 := (List.range c.partial_rounds).foldl (fun p i => partialRoundC c i p) p2
  let p4 := (fullRoundC c)^[c.half_full_rounds] p3
  p4.1.getD 1 0

/- Byte-level field-element decoding (src/unsafe_rkyv.rs). -/

/-- A byte-level archived representation of a field element (`F::Repr`),
identified with the number its bytes encode. -/
structure ReprBytes where
  val : Nat
deriving DecidableEq

/-- A field element as it sits in memory, carrying the raw value its words
encode (which a correct decoder would require to be reduced modulo the
field's modulus). -/
structure FElemRaw where
  raw : Nat
deriving DecidableEq

/-- Embedding of `Raw::deserialize_with` (src/unsafe_rkyv.rs lines 46-59):
deserialize the archived representation, then `mem::transmute_copy` it into
the field-element type.  The only failure channel is the inner
deserializer's (never the decoded value), and the transmute reinterprets
the bytes unchanged, so the conversion always succeeds and is the identity
on the raw value. -/
def rawDeserializeWith (r : ReprBytes) : Option FElemRaw :=
  some ⟨r.val⟩

/-- Modelled from the spec: the prescribed fallible decoder, which accepts
exactly the byte patterns whose value is strictly below the field's
modulus `p`. -/
def specValidatingDecode (p : Nat) (r : ReprBytes) : Option FElemRaw :=
  if r.val < p then some ⟨r.val⟩ else none

/-- A decoder validates against modulus `p` when it succeeds exactly on
byte patterns encoding a value strictly below `p`. -/
def validatesModulus (p : Nat) (dec : ReprBytes → Option FElemRaw) : Prop :=
  ∀ r, (dec r).isSome = true ↔ r.val < p

/- Concrete fixtures used by the witnesses and counterexamples. -/

instance factPrime5 : Fact (Nat.Prime 5) := ⟨by norm_num⟩

/-- A concrete 2 × 2 mixing matrix over `ZMod 5` used by the optimizer
witness. -/
def testMat : Matrix (Unit ⊕ Fin 1) (Unit ⊕ Fin 1) (ZMod 5) :=
  fun i j =>
    match i, j with
    | Sum.inl _, Sum.inl _ => 2
    | Sum.inl _, Sum.inr _ => 1
    | Sum.inr _, Sum.inl _ => 1
    | Sum.inr _, Sum.inr _ => 1

/-- A concrete state vector over `ZMod 5` used by the optimizer witness. -/
def testVec : (Unit ⊕ Fin 1) → ZMod 5 :=
  fun i =>
    match i with
    | Sum.inl _ => 1
    | Sum.inr _ => 2

/-- A concrete constants model over `ZMod 5` used by the serialization
witness. -/
def testConstants : PoseidonConstants (ZMod 5) :=
  { mds_matrices := [[1, 2], [3, 4]]
    round_constants := some [1, 1, 2, 3]
    compressed_round_constants := [1, 2, 3, 4, 0, 1]
    pre_sparse_matrix := [[2, 1], [1, 1]]
    sparse_matrixes := [([1, 2], [3])]
    strength := Strength.Standard
    domain_tag := 3
    full_rounds := 2
    half_full_rounds := 1
    partial_rounds := 1
    hash_type := CType.Arbitrary 0 }

/- Helper lemmas. -/

/-- Every state resets to exactly the freshly constructed state:
`Poseidon::reset` and `Poseidon::default` build the same value. -/
theorem reset_eq_default {F : Type} [CommRing F] {a : Nat} (s : Poseidon F a) :
    s.reset = defaultPoseidon F a := by
  unfold Poseidon.reset defaultPoseidon
  congr 1
  funext i
  by_cases hi : i = 0
  · subst hi; simp
  · have hv : 1 ≤ i.val := by
      have : i.val ≠ 0 := fun h => hi (Fin.ext (by simpa using h))
      omega
    rw [Function.update_noteq hi, Function.update_noteq hi]
    simp [hv, scalar_from_u64]

/-- The result component of `Poseidon::input` as a single conditional. -/
theorem input_fst_eq {F : Type} [CommRing F] {a : Nat} (s : Poseidon F a) (e : F) :
    (s.input e).1 =
      if a + 2 ≤ s.pos then Except.error Error.FullBuffer else Except.ok s.pos := by
  by_cases h : a + 2 ≤ s.pos <;> simp [Poseidon.input, h]

/-- Absorbing a list short enough to fit succeeds and advances the input
cursor by the list's length. -/
theorem inputMany_ok {F : Type} [CommRing F] {a : Nat} :
    ∀ (es : List F) (s : Poseidon F a), s.pos + es.length ≤ a + 2 →
      ∃ s2, inputMany es s = Except.ok s2 ∧ s2.pos = s.pos + es.length := by
  intro es
  induction es with
  | nil => exact fun s _ => ⟨s, rfl, by simp⟩
  | cons e rest ih =>
      intro s h
      have hlt : s.pos < a + 2 := by
        simp only [List.length_cons] at h; omega
      have hn : ¬ (a + 2 ≤ s.pos) := Nat.not_le.mpr hlt
      obtain ⟨s2, h1, h2⟩ :=
        ih { s with
              elements := Function.update s.elements ⟨s.pos, hlt⟩ e
              pos := s.pos + 1 }
          (by
            show s.pos + 1 + rest.length ≤ a + 2
            simp only [List.length_cons] at h
            omega)
      have h2' : s2.pos = s.pos + 1 + rest.length := h2
      refine ⟨s2, ?_, by simp only [List.length_cons]; omega⟩
      simp only [inputMany, Poseidon.input, dif_neg hn]
      exact h1

/-- Every round of src/poseidon.rs advances the round-constant offset by
`WIDTH` (via its single `add_round_constants` call): full-round case. -/
theorem full_round_offset_eq {F : Type} [CommRing F] {a : Nat}
    (RC : Nat → F) (MDS : Fin (a + 2) → Fin (a + 2) → F) (s : Poseidon F a) :
    (full_round RC MDS s).constants_offset = s.constants_offset + (a + 2) := rfl

/-- Partial-round case: the offset also advances by `WIDTH` (the source's
`add_round_constants` adds a constant to every element in both kinds of
rounds). -/
theorem partial_round_offset_eq {F : Type} [CommRing F] {a : Nat}
    (RC : Nat → F) (MDS : Fin (a + 2) → Fin (a + 2) → F) (s : Poseidon F a) :
    (partial_round RC MDS s).constants_offset = s.constants_offset + (a + 2) := rfl

/-- Offset after iterating a round function that advances by `WIDTH`. -/
theorem iterate_offset_eq {F : Type} [CommRing F] {a : Nat}
    (f : Poseidon F a → Poseidon F a)
    (hf : ∀ t, (f t).constants_offset = t.constants_offset + (a + 2)) :
    ∀ (n : Nat) (s : Poseidon F a),
      (f^[n] s).constants_offset = s.constants_offset + n * (a + 2) := by
  intro n
  induction n with
  | zero => intro s; simp
  | succ n ih =>
      intro s
      rw [Function.iterate_succ_apply, ih (f s), hf s]
      ring

/-- The indices read by one `add_round_constants` call form the consecutive
range starting at the current offset. -/
theorem acReads_eq {F : Type} {a : Nat} (s : Poseidon F a) :
    acReads s = List.range' s.constants_offset (a + 2) := by
  rw [List.range'_eq_map_range]
  rfl

/-- The indices read by `n` iterated rounds form the consecutive range of
length `n * WIDTH` starting at the current offset. -/
theorem iterReads_eq {F : Type} [CommRing F] {a : Nat}
    (f : Poseidon F a → Poseidon F a)
    (hf : ∀ t, (f t).constants_offset = t.constants_offset + (a + 2)) :
    ∀ (n : Nat) (s : Poseidon F a),
      iterReads f n s = List.range' s.constants_offset (n * (a + 2)) := by
  intro n
  induction n with
  | zero => intro s; simp [iterReads]
  | succ n ih =>
      intro s
      have harith : (n + 1) * (a + 2) = n * (a + 2) + (a + 2) := by ring
      rw [iterReads, ih (f s), acReads_eq, hf s, List.range'_append_1, harith]

/- Claim theorems. -/

/-- C6: for every permutation state, `reset()` yields exactly the freshly
constructed state (index 0 = arity tag, the rest zero, both cursors reset);
hence reset is idempotent, and reset followed by absorb-and-permute gives
the same digest as a fresh state on the same preimage. -/
theorem c6_reset_restores_fresh_state {F : Type} [CommRing F] {a : Nat}
    (s : Poseidon F a) :
    s.reset = defaultPoseidon F a ∧
    s.reset.reset = s.reset ∧
    (∀ (RC : Nat → F) (MDS : Fin (a + 2) → Fin (a + 2) → F)
       (FR PR : Nat) (es : List F),
       (inputMany es s.reset).map (hash RC MDS FR PR)
         = (inputMany es (defaultPoseidon F a)).map (hash RC MDS FR PR)) := by
  refine ⟨reset_eq_default s, ?_, ?_⟩
  · rw [reset_eq_default s, reset_eq_default (defaultPoseidon F a)]
  · intro RC MDS FR PR es
    rw [reset_eq_default s]

/-- C7: `Poseidon::hash` is a deterministic function of the initial state
and the constants: two fresh states built from the same preimage produce
identical digests. -/
theorem c7_hash_deterministic {F : Type} [CommRing F] {a : Nat}
    (RC : Nat → F) (MDS : Fin (a + 2) → Fin (a + 2) → F) (FR PR : Nat)
    (pre : Fin (a + 1) → F) (s1 s2 : Poseidon F a)
    (h1 : s1 = newPoseidon pre) (h2 : s2 = newPoseidon pre) :
    hash RC MDS FR PR s1 = hash RC MDS FR PR s2 := by
  subst h1; subst h2; rfl

/-- C7 witness at concrete parameters over `ZMod 5`. -/
theorem c7_hash_deterministic_witness :
    hash (fun _ => (0 : ZMod 5)) (fun _ _ => 1) 2 1
        (newPoseidon (fun _ => 1) : Poseidon (ZMod 5) 0)
      = hash (fun _ => (0 : ZMod 5)) (fun _ _ => 1) 2 1
        (newPoseidon (fun _ => 1) : Poseidon (ZMod 5) 0) :=
  c7_hash_deterministic (fun _ => (0 : ZMod 5)) (fun _ _ => 1) 2 1
    (fun _ => 1) _ _ rfl rfl

/-- C8: for every supported arity (every arity below 64 covers the
supported set), the arity tag placed at state index 0 of a freshly
constructed state equals the field element `2 ^ arity - 1`. -/
theorem c8_arity_tag_formula (F : Type) [CommRing F] (a : Nat)
    (harity : a + 1 < 64) :
    (defaultPoseidon F a).elements 0 = arity_tag (a + 1) ∧
    (arity_tag (a + 1) : F) = ((2 ^ (a + 1) - 1 : Nat) : F) := by
  constructor
  · simp [defaultPoseidon]
  · unfold arity_tag scalar_from_u64
    congr 1
    rw [Nat.shiftLeft_eq, one_mul]
    have hle : 2 ^ (a + 1) ≤ 2 ^ 64 := Nat.pow_le_pow_right (by norm_num) (by omega)
    have hpos : 0 < 2 ^ (a + 1) := Nat.pos_pow_of_pos _ (by norm_num)
    exact Nat.mod_eq_of_lt (by omega)

/-- C8 witness at arity 2 over `ZMod 5`. -/
theorem c8_arity_tag_formula_witness :
    1 + 1 < 64 ∧
    ((defaultPoseidon (ZMod 5) 1).elements 0 = arity_tag (1 + 1) ∧
     (arity_tag (1 + 1) : ZMod 5) = ((2 ^ (1 + 1) - 1 : Nat) : ZMod 5)) :=
  ⟨by decide, c8_arity_tag_formula (ZMod 5) 1 (by decide)⟩

/-- C9: the S-box computes `x ^ 5`, literally as four sequential
multiplications of the accumulator by the saved pre-nonlinearity value, and
the full round applies the S-box to every state element. -/
theorem c9_quintic_s_box {F : Type} [CommRing F] {a : Nat} (x : F)
    (RC : Nat → F) (MDS : Fin (a + 2) → Fin (a + 2) → F) (s : Poseidon F a) :
    quintic_s_box x = (((x * x) * x) * x) * x ∧
    quintic_s_box x = x ^ 5 ∧
    full_round RC MDS s = product_mds MDS (sboxAll (add_round_constants RC s)) ∧
    (sboxAll s).elements = fun i => quintic_s_box (s.elements i) := by
  refine ⟨rfl, ?_, rfl, rfl⟩
  unfold quintic_s_box
  ring

/-- C3: from a freshly created state, `input` succeeds exactly arity times
(returning `Ok` each time) and the next call fails with `FullBuffer`; in
general (over the states reachable through the API, whose cursor never
exceeds the width), `input` fails exactly when the input cursor already
equals the width before the call. -/
theorem c3_absorb_arity_then_full {F : Type} [CommRing F] {a : Nat}
    (es : List F) (e : F) (hlen : es.length = a + 1) :
    ((inputMany es (defaultPoseidon F a)).map (fun s2 => (s2.input e).1)
        = Except.ok (Except.error Error.FullBuffer)) ∧
    (∀ s : Poseidon F a, s.pos ≤ a + 2 →
      ((s.input e).1 = Except.error Error.FullBuffer ↔ s.pos = a + 2)) := by
  constructor
  · obtain ⟨s2, h1, h2⟩ :=
      inputMany_ok es (defaultPoseidon F a)
        (by simp only [defaultPoseidon, hlen]; omega)
    have hpos : s2.pos = a + 2 := by
      rw [h2]; simp [defaultPoseidon, hlen]; omega
    rw [h1]
    simp only [Except.map]
    rw [input_fst_eq, if_pos (by omega)]
  · intro s hs
    rw [input_fst_eq]
    by_cases h : a + 2 ≤ s.pos
    · simp only [if_pos h]
      constructor
      · intro _; omega
      · intro _; trivial
    · simp only [if_neg h]
      constructor
      · intro hc; exact absurd hc (by simp)
      · intro hc; omega

/-- C3 witness at arity 1 over `ZMod 5`. -/
theorem c3_absorb_arity_then_full_witness :
    ([(2 : ZMod 5)].length = 0 + 1) ∧
    (((inputMany [(2 : ZMod 5)] (defaultPoseidon (ZMod 5) 0)).map
          (fun s2 => (s2.input 3).1)
        = Except.ok (Except.error Error.FullBuffer)) ∧
     (∀ s : Poseidon (ZMod 5) 0, s.pos ≤ 0 + 2 →
        ((s.input 3).1 = Except.error Error.FullBuffer ↔ s.pos = 0 + 2))) :=
  ⟨by decide, c3_absorb_arity_then_full [(2 : ZMod 5)] 3 (by decide)⟩

/-- C10: a successful `input(e)` call writes `e` at the position it returns
(the pre-call cursor, between 1 and arity inclusive on reachable states),
advances only the input cursor, and leaves every other element, the element
at index 0 and the round-constant cursor unchanged; a failing call returns
`FullBuffer` and leaves the entire state unchanged. -/
theorem c10_input_frame {F : Type} [CommRing F] {a : Nat}
    (s : Poseidon F a) (e : F) (hlo : 1 ≤ s.pos) :
    (∀ hub : s.pos < a + 2,
      (s.input e).1 = Except.ok s.pos ∧
      1 ≤ s.pos ∧ s.pos ≤ a + 1 ∧
      (s.input e).2.elements ⟨s.pos, hub⟩ = e ∧
      (∀ j : Fin (a + 2), j.val ≠ s.pos → (s.input e).2.elements j = s.elements j) ∧
      (s.input e).2.elements 0 = s.elements 0 ∧
      (s.input e).2.constants_offset = s.constants_offset ∧
      (s.input e).2.pos = s.pos + 1) ∧
    (a + 2 ≤ s.pos → s.input e = (Except.error Error.FullBuffer, s)) := by
  constructor
  · intro hub
    have hn : ¬ (a + 2 ≤ s.pos) := Nat.not_le.mpr hub
    have hframe : ∀ j : Fin (a + 2), j.val ≠ s.pos →
        (s.input e).2.elements j = s.elements j := by
      intro j hj
      simp only [Poseidon.input, dif_neg hn]
      refine Function.update_noteq ?_ e s.elements
      intro hh
      apply hj
      rw [hh]
    refine ⟨?_, hlo, by omega, ?_, hframe, ?_, ?_, ?_⟩
    · simp [Poseidon.input, dif_neg hn]
    · simp only [Poseidon.input, dif_neg hn]
      exact Function.update_same _ _ _
    · exact hframe 0 (by simp; omega)
    · simp [Poseidon.input, dif_neg hn]
    · simp [Poseidon.input, dif_neg hn]
  · intro h
    simp [Poseidon.input, dif_pos h]

/-- C10 witness on the fresh state over `ZMod 5`. -/
theorem c10_input_frame_witness :
    (1 ≤ (defaultPoseidon (ZMod 5) 0).pos) ∧
    ((∀ hub : (defaultPoseidon (ZMod 5) 0).pos < 0 + 2,
      ((defaultPoseidon (ZMod 5) 0).input 4).1
          = Except.ok (defaultPoseidon (ZMod 5) 0).pos ∧
      1 ≤ (defaultPoseidon (ZMod 5) 0).pos ∧
      (defaultPoseidon (ZMod 5) 0).pos ≤ 0 + 1 ∧
      ((defaultPoseidon (ZMod 5) 0).input 4).2.elements
          ⟨(defaultPoseidon (ZMod 5) 0).pos, hub⟩ = 4 ∧
      (∀ j : Fin (0 + 2), j.val ≠ (defaultPoseidon (ZMod 5) 0).pos →
        ((defaultPoseidon (ZMod 5) 0).input 4).2.elements j
          = (defaultPoseidon (ZMod 5) 0).elements j) ∧
      ((defaultPoseidon (ZMod 5) 0).input 4).2.elements 0
          = (defaultPoseidon (ZMod 5) 0).elements 0 ∧
      ((defaultPoseidon (ZMod 5) 0).input 4).2.constants_offset
          = (defaultPoseidon (ZMod 5) 0).constants_offset ∧
      ((defaultPoseidon (ZMod 5) 0).input 4).2.pos
          = (defaultPoseidon (ZMod 5) 0).pos + 1) ∧
     (0 + 2 ≤ (defaultPoseidon (ZMod 5) 0).pos →
       (defaultPoseidon (ZMod 5) 0).input 4
         = (Except.error Error.FullBuffer, defaultPoseidon (ZMod 5) 0))) :=
  ⟨by decide, c10_input_frame (defaultPoseidon (ZMod 5) 0) 4 (by decide)⟩

/-- C1 (amended): `hash` executes `FULL_ROUNDS / 2` full rounds, then
`PARTIAL_ROUNDS` partial rounds, then `FULL_ROUNDS / 2` full rounds, and —
because `add_round_constants` consumes `WIDTH` constants in every round,
partial rounds included — the whole call consumes exactly
`(FULL_ROUNDS + PARTIAL_ROUNDS) * WIDTH` round-constant slots, strictly in
increasing order with no slot skipped or reused, finally returning the
state element at index 1 as the digest. -/
theorem c1_hash_round_schedule {F : Type} [CommRing F] {a : Nat}
    (RC : Nat → F) (MDS : Fin (a + 2) → Fin (a + 2) → F)
    (FR PR : Nat) (s : Poseidon F a) (hFR : 2 * (FR / 2) = FR) :
    hashState RC MDS FR PR s
        = (full_round RC MDS)^[FR / 2]
            ((partial_round RC MDS)^[PR] ((full_round RC MDS)^[FR / 2] s)) ∧
    hash RC MDS FR PR s = (hashState RC MDS FR PR s).elements 1 ∧
    (hashState RC MDS FR PR s).constants_offset
        = s.constants_offset + (FR + PR) * (a + 2) ∧
    hashReads RC MDS FR PR s
        = List.range' s.constants_offset ((FR + PR) * (a + 2)) ∧
    List.Pairwise (· < ·) (hashReads RC MDS FR PR s) := by
  have hfull : ∀ t : Poseidon F a,
      (full_round RC MDS t).constants_offset = t.constants_offset + (a + 2) :=
    full_round_offset_eq RC MDS
  have hpart : ∀ t : Poseidon F a,
      (partial_round RC MDS t).constants_offset = t.constants_offset + (a + 2) :=
    partial_round_offset_eq RC MDS
  have harith : FR / 2 * (a + 2) + (FR / 2 * (a + 2) + PR * (a + 2))
      = (FR + PR) * (a + 2) := by
    calc FR / 2 * (a + 2) + (FR / 2 * (a + 2) + PR * (a + 2))
        = (2 * (FR / 2) + PR) * (a + 2) := by ring
      _ = (FR + PR) * (a + 2) := by rw [hFR]
  have hreads : hashReads RC MDS FR PR s
      = List.range' s.constants_offset ((FR + PR) * (a + 2)) := by
    unfold hashReads
    rw [iterReads_eq _ hfull, iterReads_eq _ hpart, iterReads_eq _ hfull,
      iterate_offset_eq _ hfull, iterate_offset_eq _ hpart,
      iterate_offset_eq _ hfull, List.range'_append_1]
    have hstart : s.constants_offset + FR / 2 * (a + 2) + PR * (a + 2)
        = s.constants_offset + (PR * (a + 2) + FR / 2 * (a + 2)) := by ring
    rw [hstart, List.range'_append_1]
    congr 1
    calc FR / 2 * (a + 2) + (PR * (a + 2) + FR / 2 * (a + 2))
        = (2 * (FR / 2) + PR) * (a + 2) := by ring
      _ = (FR + PR) * (a + 2) := by rw [hFR]
  refine ⟨rfl, rfl, ?_, hreads, ?_⟩
  · unfold hashState
    rw [iterate_offset_eq _ hfull, iterate_offset_eq _ hpart,
      iterate_offset_eq _ hfull]
    calc s.constants_offset + FR / 2 * (a + 2) + PR * (a + 2) + FR / 2 * (a + 2)
        = s.constants_offset + (2 * (FR / 2) + PR) * (a + 2) := by ring
      _ = s.constants_offset + (FR + PR) * (a + 2) := by rw [hFR]
  · rw [hreads]
    exact List.pairwise_lt_range' _ _

/-- C1 witness at `FULL_ROUNDS = 2`, `PARTIAL_ROUNDS = 1`, width 2, over
`ZMod 5`. -/
theorem c1_hash_round_schedule_witness :
    (2 * (2 / 2) = 2) ∧
    (hashState (fun _ => (0 : ZMod 5)) (fun _ _ => 1) 2 1 (defaultPoseidon (ZMod 5) 0)
        = (full_round (fun _ => (0 : ZMod 5)) (fun _ _ => 1))^[2 / 2]
            ((partial_round (fun _ => (0 : ZMod 5)) (fun _ _ => 1))^[1]
              ((full_round (fun _ => (0 : ZMod 5)) (fun _ _ => 1))^[2 / 2]
                (defaultPoseidon (ZMod 5) 0))) ∧
     hash (fun _ => (0 : ZMod 5)) (fun _ _ => 1) 2 1 (defaultPoseidon (ZMod 5) 0)
        = (hashState (fun _ => (0 : ZMod 5)) (fun _ _ => 1) 2 1
            (defaultPoseidon (ZMod 5) 0)).elements 1 ∧
     (hashState (fun _ => (0 : ZMod 5)) (fun _ _ => 1) 2 1
        (defaultPoseidon (ZMod 5) 0)).constants_offset
        = (defaultPoseidon (ZMod 5) 0).constants_offset + (2 + 1) * (0 + 2) ∧
     hashReads (fun _ => (0 : ZMod 5)) (fun _ _ => 1) 2 1 (defaultPoseidon (ZMod 5) 0)
        = List.range' (defaultPoseidon (ZMod 5) 0).constants_offset ((2 + 1) * (0 + 2)) ∧
     List.Pairwise (· < ·)
        (hashReads (fun _ => (0 : ZMod 5)) (fun _ _ => 1) 2 1
          (defaultPoseidon (ZMod 5) 0))) :=
  ⟨by decide,
   c1_hash_round_schedule (fun _ => (0 : ZMod 5)) (fun _ _ => 1) 2 1
     (defaultPoseidon (ZMod 5) 0) (by decide)⟩

/-- C1 counterexample: with `FULL_ROUNDS = 8`, `PARTIAL_ROUNDS = 1` and
width 3 (arity 2), a fresh `hash` call consumes 27 round-constant slots —
`(FULL_ROUNDS + PARTIAL_ROUNDS) * WIDTH` — not the claimed
`FULL_ROUNDS * WIDTH + PARTIAL_ROUNDS = 25`: the source's partial round
also consumes `WIDTH` constants. -/
theorem c1_hash_round_schedule_counterexample :
    (hashState (fun _ => (0 : ZMod 5)) (fun _ _ => 1) 8 1
        (defaultPoseidon (ZMod 5) 1)).constants_offset = 27 ∧
    ¬ ((hashState (fun _ => (0 : ZMod 5)) (fun _ _ => 1) 8 1
        (defaultPoseidon (ZMod 5) 1)).constants_offset = 8 * (2 + 1) + 1) := by
  constructor
  · decide
  · decide

/-- The explicit `det⁻¹ • adjugate` inverse is a left inverse when the
determinant is nonzero. -/
theorem matInv_mul_self {F : Type} [Field F] [DecidableEq F] {k : Nat}
    (A : Matrix (Fin k) (Fin k) F) (h : A.det ≠ 0) : matInv A * A = 1 := by
  have hu : IsUnit A.det := isUnit_iff_ne_zero.mpr h
  have hinv : matInv A = A⁻¹ := by
    rw [Matrix.inv_def, Ring.inverse_eq_inv]
    rfl
  rw [hinv]
  exact Matrix.nonsing_inv_mul A hu

/-- One factorization step is exact: the sparse factor times the dense
co-factor recovers the factored matrix, whenever its trailing minor is
invertible. -/
theorem sparse_mul_dense {F : Type} [Field F] [DecidableEq F] {k : Nat}
    (C : Matrix (Unit ⊕ Fin k) (Unit ⊕ Fin k) F) (h : C.toBlocks₂₂.det ≠ 0) :
    sparsePart C * densePart C = C := by
  unfold sparsePart densePart
  rw [Matrix.fromBlocks_multiply]
  simp only [Matrix.mul_one, Matrix.mul_zero, Matrix.zero_mul, Matrix.one_mul,
    add_zero, zero_add]
  rw [Matrix.mul_assoc, matInv_mul_self _ h, Matrix.mul_one]
  exact Matrix.fromBlocks_toBlocks C

/-- C2: for every width and every state, applying the pre-sparse matrix
once and then the `partial_rounds` sparse matrices in order produces,
element for element, the same post-phase state as applying the dense mixing
matrix once per partial round, and each sparse matrix is the identity
outside its first row and first column — provided the trailing minor
factored out at each step is invertible. -/
theorem c2_sparse_factorization_equiv {F : Type} [Field F] [DecidableEq F]
    {k : Nat} (M : Matrix (Unit ⊕ Fin k) (Unit ⊕ Fin k) F) (n : Nat)
    (h : ∀ j, j < n → ((factorToSparse M j).1 * M).toBlocks₂₂.det ≠ 0) :
    (∀ v, sparsePath M n v = densePath M n v) ∧
    (∀ S ∈ (factorToSparse M n).2, S.toBlocks₂₂ = 1) := by
  induction n with
  | zero =>
      constructor
      · intro v
        show applyAll [] ((1 : Matrix (Unit ⊕ Fin k) (Unit ⊕ Fin k) F).mulVec v) = v
        show (1 : Matrix (Unit ⊕ Fin k) (Unit ⊕ Fin k) F).mulVec v = v
        exact Matrix.one_mulVec v
      · intro S hS
        exact absurd hS (List.not_mem_nil S)
  | succ n ih =>
      obtain ⟨ihv, ihs⟩ := ih (fun j hj => h j (Nat.lt_succ_of_lt hj))
      have hdet := h n (Nat.lt_succ_self n)
      constructor
      · intro v
        calc sparsePath M (n + 1) v
            = applyAll (factorToSparse M n).2
                ((sparsePart ((factorToSparse M n).1 * M)).mulVec
                  ((densePart ((factorToSparse M n).1 * M)).mulVec v)) := rfl
          _ = applyAll (factorToSparse M n).2
                ((sparsePart ((factorToSparse M n).1 * M)
                    * densePart ((factorToSparse M n).1 * M)).mulVec v) := by
              rw [Matrix.mulVec_mulVec]
          _ = applyAll (factorToSparse M n).2
                (((factorToSparse M n).1 * M).mulVec v) := by
              rw [sparse_mul_dense _ hdet]
          _ = applyAll (factorToSparse M n).2
                ((factorToSparse M n).1.mulVec (M.mulVec v)) := by
              rw [Matrix.mulVec_mulVec]
          _ = sparsePath M n (M.mulVec v) := rfl
          _ = densePath M n (M.mulVec v) := ihv (M.mulVec v)
          _ = densePath M (n + 1) v := (Function.iterate_succ_apply _ _ _).symm
      · intro S hS
        rcases List.mem_cons.mp hS with hS1 | hS2
        · subst hS1
          exact Matrix.toBlocks_fromBlocks₂₂ _ _ _ _
        · exact ihs S hS2

/-- C2 witness: a concrete 2 × 2 mixing matrix over `ZMod 5`, two partial
rounds; every step's minor is invertible and both mixing paths agree on
every state. -/
theorem c2_sparse_factorization_equiv_witness :
    (∀ j, j < 2 → ((factorToSparse testMat j).1 * testMat).toBlocks₂₂.det ≠ 0) ∧
    ((∀ v, sparsePath testMat 2 v = densePath testMat 2 v) ∧
     (∀ S ∈ (factorToSparse testMat 2).2, S.toBlocks₂₂ = 1)) :=
  ⟨by decide, c2_sparse_factorization_equiv testMat 2 (by decide)⟩

/-- C4: for every constants model and every preimage, the model obtained by
decoding the encoding (`deserialize ∘ serialize`, which drops the full
round-constant form and keeps the compressed one) hashes the preimage to
the same digest as the original model — under the model invariant
`half_full_rounds = full_rounds / 2` (spec section 3), which `deserialize`
re-derives. -/
theorem c4_roundtrip_hashes_identically {F : Type} [CommRing F]
    (c : PoseidonConstants F) (preimage : List F)
    (h : c.half_full_rounds = c.full_rounds / 2) :
    hashWithConstants (rkyvRoundtrip c) preimage
      = hashWithConstants c preimage := by
  cases c with
  | mk mds rc crc psm sm str dt fr hfr pr ht =>
      simp only at h
      subst h
      rfl

/-- C4 witness on a concrete constants model over `ZMod 5` (its full
round-constant form is present before encoding and dropped by the
roundtrip). -/
theorem c4_roundtrip_hashes_identically_witness :
    (testConstants.half_full_rounds = testConstants.full_rounds / 2) ∧
    hashWithConstants (rkyvRoundtrip testConstants) [(1 : ZMod 5)]
      = hashWithConstants testConstants [(1 : ZMod 5)] :=
  ⟨by decide, c4_roundtrip_hashes_identically testConstants [(1 : ZMod 5)] (by decide)⟩

/-- C5 counterexample: the byte pattern encoding 10 is not below the (toy)
modulus 7, yet `Raw::deserialize_with` accepts it unchanged — and the
spec's validating decoder rejects it — so the decoder does not validate the
decoded bytes against any modulus. -/
theorem c5_validating_decode_counterexample :
    rawDeserializeWith ⟨10⟩ = some ⟨10⟩ ∧
    specValidatingDecode 7 ⟨10⟩ = none ∧
    ¬ validatesModulus 7 rawDeserializeWith := by
  refine ⟨rfl, rfl, fun h => ?_⟩
  have h10 : (10 : Nat) < 7 := (h ⟨10⟩).mp rfl
  omega

/-- C5 (amended): decoding a field element from its byte-level archived
form is a blind reinterpretation: it is total (never fails) and returns the
decoded byte value unchanged, with no validation against the field's
modulus. -/
theorem c5_decode_is_blind_reinterpretation (r : ReprBytes) :
    rawDeserializeWith r = some ⟨r.val⟩ := rfl

end NeptuneModel
